import Mathlib

/-!
Verification of the crank-voltage feature extraction pipeline
(`intelematics_write_features.py`) and the search-result CSV converter
(`intelematics_write_csv_from_es.py`).

The Python code is embedded shallowly over `ℚ`: NumPy/pandas floats become
exact rationals, Python's `IndexError` (and the deliberate "discard this
crank" failure) becomes `Option.none`, and Python's negative-index access is
modelled explicitly.  Every definition follows the source line by line; the
theorems at the end of the file settle the frozen claims.
-/

/-- A crank record: the ordered voltage samples plus an opaque timestamp. -/
structure Crank where
  crank_profile : List ℚ
  time : String

/-- The feature record written per crank: exactly the four entries produced
by `extract_features`. -/
structure Features where
  iv : ℚ
  lvv : ℚ
  mcv : ℚ
  time : String
deriving DecidableEq

/-- Arithmetic mean as NumPy computes it (`np.mean`): sum over length.  The
empty list gives `0` here (rational division by zero); NumPy would give NaN,
a value the claims never reach. -/
def npMean (l : List ℚ) : ℚ := l.sum / l.length

/-- Population variance, the square of `np.std` (ddof = 0): mean of squared
deviations from the mean. -/
def npVar (l : List ℚ) : ℚ := (l.map (fun x => (x - npMean l) ^ 2)).sum / l.length

/-- Index of the first occurrence of the minimum, as `np.argmin` computes it
(`0` on the empty list, where NumPy would raise). -/
def argmin (l : List ℚ) : Nat := l.findIdx (fun x => decide (∀ y ∈ l, x ≤ y))

/-- Python slice `l[a:-k]` for a non-negative start and negative stop. -/
def pySlice (l : List ℚ) (a k : Nat) : List ℚ := (l.take (l.length - k)).drop a

/-- Python element access `l[i]` with a possibly negative index: a negative
index is wrapped once by the length (the only form the source exercises). -/
def pyGet (t : List ℚ) (i : Int) : ℚ :=
  if i < 0 then t.getD (i + t.length).toNat 0 else t.getD i.toNat 0

/-- The scaled first difference `(domain[i+1] - domain[i]) * 10` of
`get_diff_times_10`, one entry per adjacent pair. -/
def get_diff_times_10 (domain : List ℚ) : List ℚ :=
  (domain.zip domain.tail).map (fun q => (q.2 - q.1) * 10)

/-- The comparison `point > 2.5 * np.std(domain)` of `get_end_of_mcv_domain`,
made rational: for a variance `v ≥ 0`, `x > 2.5·√v` iff `x > 0` and
`4·x² > 25·v` (see `exceedsLimit_iff_real`). -/
def exceedsLimit (v x : ℚ) : Bool := decide (0 < x) && decide (25 * v < 4 * x ^ 2)

/-- The domain-end detection of `get_end_of_mcv_domain`: scaled differences of
`smoothed_trace[argmin:-30]`, a `2.5·σ` surge threshold, and the last index
(offset by `argmin`) whose difference exceeds it.  `none` models the
`IndexError` raised by `end_candidates[-1]` on the empty candidate list. -/
def get_end_of_mcv_domain (smoothed_trace : List ℚ) : Option Nat :=
  let domain := get_diff_times_10 (pySlice smoothed_trace (argmin smoothed_trace) 30)
  let v := npVar domain
  (((List.range domain.length).filter (fun i => exceedsLimit v (domain.getD i 0))).map
    (fun i => i + argmin smoothed_trace)).getLast?

/-- Position of the first element strictly above `limit`, scanning left to
right; `none` when no element qualifies. -/
def firstExceed (limit : ℚ) : List ℚ → Option Nat
  | [] => none
  | x :: xs => if limit < x then some 0 else (firstExceed limit xs).map (· + 1)

/-- The projection of `project_last_maximum_on_curve`: scan
`smoothed_trace[last_maximum+10:-10]` for the first point strictly above
`smoothed_trace[last_maximum]` and return its absolute index; the implicit
Python `None` on a fruitless scan becomes `Option.none`. -/
def project_last_maximum_on_curve (smoothed_trace : List ℚ) (last_maximum : Nat) :
    Option Nat :=
  (firstExceed (smoothed_trace.getD last_maximum 0)
      (pySlice smoothed_trace (last_maximum + 10) 10)).map
    (fun i => last_maximum + i + 10)

/-- The peak acceptance test shared by both branches of `get_local_maxima`:
`abs(t[p] - t[p-10]) > 0.1`, `t[p-10] < t[p]` and `t[p+10] < t[p]`, with
`t[p-10]` read through Python's negative-index wrap when `p < 10`. -/
def lmCond (t : List ℚ) (p : Nat) : Bool :=
  decide (1 / 10 < |t.getD p 0 - pyGet t ((p : Int) - 10)|) &&
  decide (pyGet t ((p : Int) - 10) < t.getD p 0) &&
  decide (t.getD (p + 10) 0 < t.getD p 0)

/-- The candidate peaks `scipy.signal.argrelextrema(np.array(t[:-10]),
np.greater)[0]`: interior indices of the truncated trace strictly above both
immediate neighbours, in increasing order. -/
def relMaxCandidates (t : List ℚ) : List Nat :=
  (List.range (t.length - 10)).filter (fun p =>
    decide (0 < p) && decide (p + 1 < t.length - 10) &&
    decide (t.getD (p - 1) 0 < t.getD p 0) && decide (t.getD (p + 1) 0 < t.getD p 0))

/-- The accumulation loop of `get_local_maxima` over the candidate peaks.
The `Option Nat` state mirrors Python's `previous` variable, including the
truthiness test `if not previous:` being taken again when `previous == 0`. -/
def lmLoop (t : List ℚ) (mi : Nat) : List Nat → Option Nat → List Nat
  | [], _ => []
  | p :: ps, none =>
    if lmCond t p then (p + mi) :: lmLoop t mi ps (some p) else lmLoop t mi ps none
  | p :: ps, some pv =>
    if pv = 0 then
      if lmCond t p then (p + mi) :: lmLoop t mi ps (some p) else lmLoop t mi ps (some pv)
    else
      if decide (10 ≤ ((p : Int) - (pv : Int)).natAbs) && lmCond t p then
        (p + mi) :: lmLoop t mi ps (some p)
      else lmLoop t mi ps (some pv)

/-- `get_local_maxima`: accepted peaks (as absolute indices, the local index
plus `min_index`) among the relative maxima of the trace without its last 10
points. -/
def get_local_maxima (smoothed_trace : List ℚ) (min_index : Nat) : List Nat :=
  lmLoop smoothed_trace min_index (relMaxCandidates smoothed_trace) none

/-- Round to the nearest integer, ties to even, as `np.round` does. -/
def roundHalfEven (x : ℚ) : ℤ :=
  if x - ⌊x⌋ < 1 / 2 then ⌊x⌋
  else if 1 / 2 < x - ⌊x⌋ then ⌊x⌋ + 1
  else if Even ⌊x⌋ then ⌊x⌋ else ⌊x⌋ + 1

/-- `np.round(x, 2)`: banker's rounding at the second decimal place. -/
def round2 (x : ℚ) : ℚ := (roundHalfEven (x * 100) : ℚ) / 100

/-- The upper bound chosen by `get_mcv` after projecting the last maximum:
Python's `projection if projection else end_mcv_domain`, where both `None`
and the integer `0` are falsy. -/
def averageEnds (projection : Option Nat) (end_mcv_domain : Nat) : Nat :=
  match projection with
  | some r => if r = 0 then end_mcv_domain else r
  | none => end_mcv_domain

/-- `get_mcv`: domain end, local maxima on `smoothed_trace[min:end]`, optional
projection of the last maximum, and the rounded mean of the selected window.
`none` propagates the failure of `get_end_of_mcv_domain`. -/
def get_mcv (smoothed_trace : List ℚ) (minimum_index : Nat) : Option ℚ :=
  match get_end_of_mcv_domain smoothed_trace with
  | none => none
  | some e =>
    match (get_local_maxima ((smoothed_trace.take e).drop minimum_index)
        minimum_index).getLast? with
    | none => some (round2 (npMean ((smoothed_trace.take e).drop minimum_index)))
    | some last =>
      some (round2 (npMean ((smoothed_trace.take
        (averageEnds (project_last_maximum_on_curve smoothed_trace last) e)).drop
        minimum_index)))

/-- Maximum element of a list (`max` in Python), `none` on the empty list. -/
def listMax : List ℚ → Option ℚ
  | [] => none
  | x :: xs => some (xs.foldl max x)

/-- Minimum element of a list (`min` in Python), `none` on the empty list. -/
def listMin : List ℚ → Option ℚ
  | [] => none
  | x :: xs => some (xs.foldl min x)

/-- `get_iv`: greatest value of the smoothed trace up to and including the
minimum index. -/
def get_iv (smoothed_trace : List ℚ) (minimum_index : Nat) : ℚ :=
  (listMax (smoothed_trace.take (minimum_index + 1))).getD 0

/-- `get_lvv`: least value of the whole smoothed trace. -/
def get_lvv (smoothed_trace : List ℚ) : ℚ := (listMin smoothed_trace).getD 0

/-- The pandas trailing moving average `rolling(min_periods=1,
window=w).mean()`: at position `i`, the mean of the last `min (i+1) w`
values up to and including position `i`. -/
def rollingMean (l : List ℚ) (w : Nat) : List ℚ :=
  (List.range l.length).map (fun i => npMean ((l.take (i + 1)).drop (i + 1 - w)))

/-- `get_smoothed_trace`: the raw profile kept intact up to and including its
first minimum, then the window-5 trailing moving average of the rest. -/
def get_smoothed_trace (crank : Crank) : List ℚ :=
  crank.crank_profile.take (argmin crank.crank_profile + 1) ++
    rollingMean (crank.crank_profile.drop (argmin crank.crank_profile + 1)) 5

/-- `extract_features`: smoothed trace, minimum index, and the three
coefficients plus the passthrough timestamp; `none` models the propagated
exception that discards the crank. -/
def extract_features (crank : Crank) : Option Features :=
  let smoothed_trace := get_smoothed_trace crank
  let min_index := argmin smoothed_trace
  match get_mcv smoothed_trace min_index with
  | none => none
  | some mcv =>
    some { iv := get_iv smoothed_trace min_index, lvv := get_lvv smoothed_trace,
           mcv := mcv, time := crank.time }

/-- Field names of one search result's `_source`, sorted as Python's
`sorted(...)` sorts strings. -/
def sortedKeys (source : List (String × String)) : List String :=
  List.insertionSort (· ≤ ·) (source.map Prod.fst)

/-- Dictionary lookup `line['_source'][key]` (with `""` for a missing key, a
case the Python code never survives). -/
def lookupD (source : List (String × String)) (k : String) : String :=
  ((source.find? (fun q => q.1 == k)).map Prod.snd).getD ""

/-- One CSV line of the converter: the result's values listed in the order of
its own sorted field names. -/
def csvLine (source : List (String × String)) : List String :=
  (sortedKeys source).map (fun k => lookupD source k)

/-- The CSV converter's output for one document, as rows of cells: a header
row of the first result's sorted field names, then one line per result.
`none` models the `IndexError` on `data['hits']['hits'][0]` for a document
with no results. -/
def writeCsv (hits : List (List (String × String))) : Option (List (List String)) :=
  match hits with
  | [] => none
  | first :: _ => some (sortedKeys first :: hits.map csvLine)

/-- The claim-side description of `mcv` (spec §4.5 as claim C1 words it):
there is an upper bound `ub` with `v` the rounded mean of `t[mi:ub]`, where
`ub` is the domain end when no local maximum is accepted on `t[mi:e]`, and
otherwise the absolute index of the first point of `t[last+10 : len-10]`
strictly above `t[last]`, falling back to the domain end when no point of
that window exceeds `t[last]`. -/
def mcvSpec (t : List ℚ) (mi e : Nat) (v : ℚ) : Prop :=
  ∃ ub, v = round2 (npMean ((t.take ub).drop mi)) ∧
    ((get_local_maxima ((t.take e).drop mi) mi = [] ∧ ub = e) ∨
     (∃ last, (get_local_maxima ((t.take e).drop mi) mi).getLast? = some last ∧
       ((last + 10 ≤ ub ∧ ub < t.length - 10 ∧ t.getD last 0 < t.getD ub 0 ∧
         (∀ j, last + 10 ≤ j → j < ub → ¬ t.getD last 0 < t.getD j 0)) ∨
        ((∀ j, last + 10 ≤ j → j < t.length - 10 → ¬ t.getD last 0 < t.getD j 0) ∧
         ub = e))))

/-- The claim-side reading of the CSV converter refuted by `exDoc`: every
line rendered in the order of the header, i.e. of the first result's sorted
field names. -/
def writeCsvHeaderOrder (hits : List (List (String × String))) :
    Option (List (List String)) :=
  match hits with
  | [] => none
  | first :: _ => some (sortedKeys first ::
      hits.map (fun src => (sortedKeys first).map (fun k => lookupD src k)))

/-- A crank with one sharp surge after the minimum and a long flat tail:
domain-end detection succeeds (the domain end is index 35), no local maximum
is accepted, and the whole pipeline returns a record.  Used as the concrete
input of the witnesses. -/
def exampleCrank : Crank :=
  ⟨[5, 0] ++ List.replicate 30 0 ++ List.replicate 45 10, "2018-11-26T07:36"⟩

/-- The round-trip profile of spec §8: minimum 2 at index 3 and a long
trailing plateau. -/
def c3crank : Crank :=
  ⟨[10, 9, 8, 2, 3, 5, 9, 12, 11, 10, 9, 8, 7, 7, 6, 6, 6, 6, 6, 6, 6, 6, 6,
    6, 6, 6, 6, 6, 6, 6, 6, 6, 6], "2018-11-26T07:36"⟩

/-- A trace whose only relative maximum of `t[:-10]` sits at index 5 < 10:
the comparison `t[5 - 10]` wraps around to `t[15]` in Python, and the peak is
accepted. -/
def wrapTrace : List ℚ :=
  [0, 0, 0, 0, 0, 1, 0, 0, 0, 0, 0, 0, 0, 0, 0, 0, 0, 0, 0, 0]

/-- A trace with a maximum of value 5 at index 1 and the first strictly
larger point at absolute index 11, inside the scanned window. -/
def projTrace : List ℚ :=
  [0, 5, 0, 0, 0, 0, 0, 0, 0, 0, 0, 9, 0, 0, 0, 0, 0, 0, 0, 0, 0, 0, 0, 0,
   0, 0, 0, 0, 0, 0]

/-- A constant crank: every scaled difference of the smoothed trace is zero,
so no difference exceeds the surge threshold. -/
def constCrank : Crank := ⟨List.replicate 40 5, "2018-11-26T07:36"⟩

/-- Two search results with different field sets: the second line of the
emitted CSV cannot follow the header's order. -/
def exDoc : List (List (String × String)) :=
  [[("a", "1"), ("b", "2")], [("b", "2"), ("c", "3")]]

/-- Two search results over the same field set, listed in different orders. -/
def exDocUniform : List (List (String × String)) :=
  [[("a", "1"), ("b", "2")], [("b", "4"), ("a", "3")]]

/-! ## Supporting lemmas -/

lemma getD_def (l : List ℚ) (i : Nat) (h : i < l.length) : l.getD i 0 = l[i] := by
  simp [List.getD_eq_getElem?_getD, List.getElem?_eq_getElem h]

lemma mean_ge (l : List ℚ) (a : ℚ) (hne : l ≠ []) (h : ∀ x ∈ l, a ≤ x) : a ≤ npMean l := by
  have hlen : 0 < (l.length : ℚ) := by
    have : 0 < l.length := List.length_pos.mpr hne
    exact_mod_cast this
  rw [npMean, le_div_iff₀ hlen]
  calc a * l.length = l.length • a := by rw [nsmul_eq_mul, mul_comm]
    _ ≤ l.sum := List.card_nsmul_le_sum l a h

lemma exists_min (l : List ℚ) (h : l ≠ []) : ∃ x ∈ l, ∀ y ∈ l, x ≤ y := by
  induction l with
  | nil => exact absurd rfl h
  | cons a t ih =>
    cases t with
    | nil => exact ⟨a, by simp⟩
    | cons b u =>
      obtain ⟨x, hx, hxall⟩ := ih (by simp)
      rcases le_total a x with hax | hxa
      · refine ⟨a, by simp, ?_⟩
        intro y hy
        rcases List.mem_cons.mp hy with rfl | hy
        · exact le_refl y
        · exact le_trans hax (hxall y hy)
      · refine ⟨x, List.mem_cons_of_mem a hx, ?_⟩
        intro y hy
        rcases List.mem_cons.mp hy with rfl | hy
        · exact hxa
        · exact hxall y hy

lemma argmin_lt_length (l : List ℚ) (h : l ≠ []) : argmin l < l.length := by
  obtain ⟨x, hx, hall⟩ := exists_min l h
  exact List.findIdx_lt_length_of_exists ⟨x, hx, by simpa using hall⟩

lemma argmin_is_min (l : List ℚ) (h : l ≠ []) : ∀ y ∈ l, l.getD (argmin l) 0 ≤ y := by
  intro y hy
  have hlt : l.findIdx (fun x => decide (∀ z ∈ l, x ≤ z)) < l.length := argmin_lt_length l h
  have hp := List.findIdx_getElem (w := hlt)
  rw [argmin, getD_def _ _ hlt]
  simp only [decide_eq_true_eq] at hp
  exact hp y hy

lemma argmin_lt_before (l : List ℚ) (h : l ≠ []) (j : Nat) (hj : j < argmin l) :
    l.getD (argmin l) 0 < l.getD j 0 := by
  have hjl : j < l.length := lt_trans hj (argmin_lt_length l h)
  have hj2 : j < l.findIdx (fun x => decide (∀ z ∈ l, x ≤ z)) := hj
  have hnot := List.not_of_lt_findIdx hj2
  simp only [decide_eq_false_iff_not, not_forall] at hnot
  push_neg at hnot
  obtain ⟨y, hy, hylt⟩ := hnot
  rw [getD_def _ _ hjl]
  exact lt_of_le_of_lt (argmin_is_min l h y hy) hylt

lemma argmin_eq (l : List ℚ) (i : Nat) (hi : i < l.length)
    (hmin : ∀ y ∈ l, l.getD i 0 ≤ y)
    (hbefore : ∀ j, j < i → ∃ y ∈ l, y < l.getD j 0) : argmin l = i := by
  rw [argmin, List.findIdx_eq hi]
  constructor
  · simp only [decide_eq_true_eq]
    intro y hy
    rw [← getD_def _ _ hi]
    exact hmin y hy
  · intro j hj
    obtain ⟨y, hy, hylt⟩ := hbefore j hj
    simp only [decide_eq_false_iff_not]
    intro hall
    have hle := hall y hy
    rw [← getD_def _ _ (lt_trans hj hi)] at hle
    exact absurd hylt (not_lt.mpr hle)

lemma rollingMean_length (l : List ℚ) (w : Nat) : (rollingMean l w).length = l.length := by
  simp [rollingMean]

lemma rollingMean_getD (l : List ℚ) (w i : Nat) (h : i < l.length) :
    (rollingMean l w).getD i 0 = npMean ((l.take (i + 1)).drop (i + 1 - w)) := by
  have hlt : i < (rollingMean l w).length := by rwa [rollingMean_length]
  rw [getD_def _ _ hlt]
  simp [rollingMean]

lemma rollingMean_mem (l : List ℚ) (w : Nat) (y : ℚ) (hy : y ∈ rollingMean l w) :
    ∃ i < l.length, y = npMean ((l.take (i + 1)).drop (i + 1 - w)) := by
  simp only [rollingMean, List.mem_map, List.mem_range] at hy
  obtain ⟨i, hi, rfl⟩ := hy
  exact ⟨i, hi, rfl⟩

lemma window_ne_nil (l : List ℚ) (w i : Nat) (hw : 0 < w) (h : i < l.length) :
    (l.take (i + 1)).drop (i + 1 - w) ≠ [] := by
  have hlen : (((l.take (i + 1)).drop (i + 1 - w)).length) = (i + 1) - (i + 1 - w) := by
    simp only [List.length_drop, List.length_take]
    omega
  intro hnil
  rw [hnil] at hlen
  simp only [List.length_nil] at hlen
  omega

lemma window_subset (l : List ℚ) (w i : Nat) (x : ℚ)
    (hx : x ∈ (l.take (i + 1)).drop (i + 1 - w)) : x ∈ l :=
  List.mem_of_mem_take (List.mem_of_mem_drop hx)

lemma smoothed_length (c : Crank) (h : c.crank_profile ≠ []) :
    (get_smoothed_trace c).length = c.crank_profile.length := by
  have hm := argmin_lt_length c.crank_profile h
  simp only [get_smoothed_trace, List.length_append, rollingMean_length,
    List.length_take, List.length_drop]
  omega

lemma smoothed_take (c : Crank) (h : c.crank_profile ≠ []) :
    (get_smoothed_trace c).take (argmin c.crank_profile + 1) =
      c.crank_profile.take (argmin c.crank_profile + 1) := by
  have hm := argmin_lt_length c.crank_profile h
  unfold get_smoothed_trace
  rw [List.take_left' (by simp only [List.length_take]; omega)]

lemma smoothed_getD_front (c : Crank) (h : c.crank_profile ≠ []) (j : Nat)
    (hj : j ≤ argmin c.crank_profile) :
    (get_smoothed_trace c).getD j 0 = c.crank_profile.getD j 0 := by
  have hm := argmin_lt_length c.crank_profile h
  have hjr : j < c.crank_profile.length := lt_of_le_of_lt (by omega) hm
  have hjt : j < (get_smoothed_trace c).length := by rwa [smoothed_length c h]
  rw [getD_def _ _ hjt, getD_def _ _ hjr]
  unfold get_smoothed_trace
  rw [List.getElem_append_left (by simp only [List.length_take]; omega)]
  rw [List.getElem_take]

lemma smoothed_getD_back (c : Crank) (h : c.crank_profile ≠ []) (i : Nat)
    (hi : i < c.crank_profile.length - (argmin c.crank_profile + 1)) :
    (get_smoothed_trace c).getD (argmin c.crank_profile + 1 + i) 0 =
      npMean (((c.crank_profile.drop (argmin c.crank_profile + 1)).take (i + 1)).drop
        (i + 1 - 5)) := by
  have hm := argmin_lt_length c.crank_profile h
  have hidx : (get_smoothed_trace c).getD (argmin c.crank_profile + 1 + i) 0 =
      (rollingMean (c.crank_profile.drop (argmin c.crank_profile + 1)) 5).getD i 0 := by
    unfold get_smoothed_trace
    simp only [List.getD_eq_getElem?_getD]
    rw [List.getElem?_append_right (by simp only [List.length_take]; omega)]
    congr 2
    simp only [List.length_take]
    omega
  rw [hidx, rollingMean_getD _ _ _ (by simp only [List.length_drop]; omega)]

lemma smoothed_ne_nil (c : Crank) (h : c.crank_profile ≠ []) : get_smoothed_trace c ≠ [] := by
  intro hnil
  have hlen := smoothed_length c h
  rw [hnil] at hlen
  simp only [List.length_nil] at hlen
  exact h (List.length_eq_zero.mp hlen.symm)

lemma argmin_smoothed (c : Crank) (h : c.crank_profile ≠ []) :
    argmin (get_smoothed_trace c) = argmin c.crank_profile := by
  have hm := argmin_lt_length c.crank_profile h
  have hmt : argmin c.crank_profile < (get_smoothed_trace c).length := by
    rw [smoothed_length c h]
    exact hm
  have hval : (get_smoothed_trace c).getD (argmin c.crank_profile) 0 =
      c.crank_profile.getD (argmin c.crank_profile) 0 :=
    smoothed_getD_front c h (argmin c.crank_profile) le_rfl
  apply argmin_eq (get_smoothed_trace c) (argmin c.crank_profile) hmt
  · intro y hy
    rw [hval]
    unfold get_smoothed_trace at hy
    rcases List.mem_append.mp hy with hy | hy
    · exact argmin_is_min c.crank_profile h y (List.mem_of_mem_take hy)
    · obtain ⟨i, hi, rfl⟩ := rollingMean_mem _ _ _ hy
      apply mean_ge _ _ (window_ne_nil _ 5 i (by norm_num) hi)
      intro x hx
      exact argmin_is_min c.crank_profile h x
        (List.mem_of_mem_drop (window_subset _ 5 i x hx))
  · intro j hj
    refine ⟨(get_smoothed_trace c).getD (argmin c.crank_profile) 0, ?_, ?_⟩
    · rw [getD_def _ _ hmt]
      exact List.getElem_mem hmt
    · rw [hval]
      have hjf := smoothed_getD_front c h j (le_of_lt hj)
      rw [hjf]
      exact argmin_lt_before c.crank_profile h j hj

lemma firstExceed_some (limit : ℚ) (l : List ℚ) (i : Nat)
    (h : firstExceed limit l = some i) :
    i < l.length ∧ limit < l.getD i 0 ∧ ∀ j < i, ¬ limit < l.getD j 0 := by
  induction l generalizing i with
  | nil => simp [firstExceed] at h
  | cons x xs ih =>
    rw [firstExceed] at h
    by_cases hx : limit < x
    · rw [if_pos hx] at h
      cases h
      exact ⟨by simp, by simpa using hx, fun j hj => absurd hj (by omega)⟩
    · rw [if_neg hx] at h
      obtain ⟨i', hi', rfl⟩ := Option.map_eq_some'.mp h
      obtain ⟨h1, h2, h3⟩ := ih i' hi'
      refine ⟨by simp only [List.length_cons]; omega, by simpa using h2, ?_⟩
      intro j hj
      cases j with
      | zero => simpa using hx
      | succ j' =>
        have := h3 j' (by omega)
        simpa using this

lemma firstExceed_none (limit : ℚ) (l : List ℚ) (h : firstExceed limit l = none) :
    ∀ x ∈ l, ¬ limit < x := by
  induction l with
  | nil => simp
  | cons x xs ih =>
    rw [firstExceed] at h
    by_cases hx : limit < x
    · simp [if_pos hx] at h
    · rw [if_neg hx] at h
      intro y hy
      rcases List.mem_cons.mp hy with rfl | hy
      · exact hx
      · exact ih (Option.map_eq_none'.mp h) y hy

lemma pySlice_length (l : List ℚ) (a k : Nat) :
    (pySlice l a k).length = (l.length - k) - a := by
  simp only [pySlice, List.length_drop, List.length_take]
  omega

lemma pySlice_getD (l : List ℚ) (a k i : Nat) (h : i < (l.length - k) - a) :
    (pySlice l a k).getD i 0 = l.getD (a + i) 0 := by
  simp only [pySlice, List.getD_eq_getElem?_getD]
  rw [List.getElem?_drop, List.getElem?_take_of_lt (by omega)]

lemma init_le_foldl_max (xs : List ℚ) (a : ℚ) : a ≤ xs.foldl max a := by
  induction xs generalizing a with
  | nil => simp
  | cons x t ih => exact le_trans (le_max_left a x) (ih (max a x))

lemma mem_le_foldl_max (xs : List ℚ) (a y : ℚ) (hy : y ∈ xs) : y ≤ xs.foldl max a := by
  induction xs generalizing a with
  | nil => simp at hy
  | cons x t ih =>
    simp only [List.foldl_cons]
    rcases List.mem_cons.mp hy with rfl | hy
    · exact le_trans (le_max_right a y) (init_le_foldl_max t (max a y))
    · exact ih (max a x) hy

lemma foldl_max_mem (xs : List ℚ) (a : ℚ) : xs.foldl max a ∈ xs ∨ xs.foldl max a = a := by
  induction xs generalizing a with
  | nil => exact Or.inr rfl
  | cons x t ih =>
    simp only [List.foldl_cons]
    rcases ih (max a x) with hmem | heq
    · exact Or.inl (List.mem_cons_of_mem x hmem)
    · rcases max_choice a x with hc | hc
      · exact Or.inr (heq.trans hc)
      · exact Or.inl (by rw [heq, hc]; exact List.mem_cons_self x t)

lemma foldl_min_le_init (xs : List ℚ) (a : ℚ) : xs.foldl min a ≤ a := by
  induction xs generalizing a with
  | nil => simp
  | cons x t ih => exact le_trans (ih (min a x)) (min_le_left a x)

lemma foldl_min_le_mem (xs : List ℚ) (a y : ℚ) (hy : y ∈ xs) : xs.foldl min a ≤ y := by
  induction xs generalizing a with
  | nil => simp at hy
  | cons x t ih =>
    simp only [List.foldl_cons]
    rcases List.mem_cons.mp hy with rfl | hy
    · exact le_trans (foldl_min_le_init t (min a y)) (min_le_right a y)
    · exact ih (min a x) hy

lemma foldl_min_mem (xs : List ℚ) (a : ℚ) : xs.foldl min a ∈ xs ∨ xs.foldl min a = a := by
  induction xs generalizing a with
  | nil => exact Or.inr rfl
  | cons x t ih =>
    simp only [List.foldl_cons]
    rcases ih (min a x) with hmem | heq
    · exact Or.inl (List.mem_cons_of_mem x hmem)
    · rcases min_choice a x with hc | hc
      · exact Or.inr (heq.trans hc)
      · exact Or.inl (by rw [heq, hc]; exact List.mem_cons_self x t)

lemma listMax_spec (l : List ℚ) (h : l ≠ []) :
    ∃ m, listMax l = some m ∧ m ∈ l ∧ ∀ y ∈ l, y ≤ m := by
  cases l with
  | nil => exact absurd rfl h
  | cons x xs =>
    refine ⟨xs.foldl max x, rfl, ?_, ?_⟩
    · rcases foldl_max_mem xs x with hm | hm
      · exact List.mem_cons_of_mem x hm
      · rw [hm]
        exact List.mem_cons_self x xs
    · intro y hy
      rcases List.mem_cons.mp hy with rfl | hy
      · exact init_le_foldl_max xs y
      · exact mem_le_foldl_max xs x y hy

lemma listMin_spec (l : List ℚ) (h : l ≠ []) :
    ∃ m, listMin l = some m ∧ m ∈ l ∧ ∀ y ∈ l, m ≤ y := by
  cases l with
  | nil => exact absurd rfl h
  | cons x xs =>
    refine ⟨xs.foldl min x, rfl, ?_, ?_⟩
    · rcases foldl_min_mem xs x with hm | hm
      · exact List.mem_cons_of_mem x hm
      · rw [hm]
        exact List.mem_cons_self x xs
    · intro y hy
      rcases List.mem_cons.mp hy with rfl | hy
      · exact foldl_min_le_init xs y
      · exact foldl_min_le_mem xs x y hy

lemma lmLoop_mem (t : List ℚ) (mi : Nat) :
    ∀ (cs : List Nat) (prev : Option Nat) (a : Nat), a ∈ lmLoop t mi cs prev →
      ∃ p ∈ cs, a = p + mi ∧ lmCond t p = true := by
  intro cs
  induction cs with
  | nil =>
    intro prev a ha
    cases prev <;> simp [lmLoop] at ha
  | cons p ps ih =>
    have step : ∀ (next : Option Nat) (a : Nat), a ∈ (p + mi) :: lmLoop t mi ps next →
        lmCond t p = true → ∃ q ∈ p :: ps, a = q + mi ∧ lmCond t q = true := by
      intro next a ha hc
      rcases List.mem_cons.mp ha with rfl | ha
      · exact ⟨p, List.mem_cons_self p ps, rfl, hc⟩
      · obtain ⟨q, hq, rfl, hcq⟩ := ih next a ha
        exact ⟨q, List.mem_cons_of_mem p hq, rfl, hcq⟩
    have skip : ∀ (next : Option Nat) (a : Nat), a ∈ lmLoop t mi ps next →
        ∃ q ∈ p :: ps, a = q + mi ∧ lmCond t q = true := by
      intro next a ha
      obtain ⟨q, hq, rfl, hcq⟩ := ih next a ha
      exact ⟨q, List.mem_cons_of_mem p hq, rfl, hcq⟩
    intro prev a ha
    cases prev with
    | none =>
      rw [lmLoop] at ha
      by_cases hc : lmCond t p
      · rw [if_pos hc] at ha
        exact step (some p) a ha hc
      · rw [if_neg hc] at ha
        exact skip none a ha
    | some pv =>
      rw [lmLoop] at ha
      by_cases hz : pv = 0
      · rw [if_pos hz] at ha
        by_cases hc : lmCond t p
        · rw [if_pos hc] at ha
          exact step (some p) a ha hc
        · rw [if_neg hc] at ha
          exact skip (some pv) a ha
      · rw [if_neg hz] at ha
        by_cases hacc : (decide (10 ≤ ((p : Int) - (pv : Int)).natAbs) && lmCond t p) = true
        · rw [if_pos hacc] at ha
          exact step (some p) a ha (Bool.and_eq_true .. |>.mp hacc).2
        · rw [if_neg hacc] at ha
          exact skip (some pv) a ha

lemma lmLoop_lower (t : List ℚ) (mi : Nat) :
    ∀ (cs : List Nat) (pv : Nat), cs.Pairwise (· < ·) → 1 ≤ pv →
      (∀ p ∈ cs, pv < p) → ∀ a ∈ lmLoop t mi cs (some pv), pv + mi + 10 ≤ a := by
  intro cs
  induction cs with
  | nil =>
    intro pv _ _ _ a ha
    simp [lmLoop] at ha
  | cons p ps ih =>
    intro pv hpw hpv hgt a ha
    have hps_pw := hpw.of_cons
    have hps_gt := (List.pairwise_cons.mp hpw).1
    rw [lmLoop, if_neg (by omega : ¬ pv = 0)] at ha
    by_cases hacc : (decide (10 ≤ ((p : Int) - (pv : Int)).natAbs) && lmCond t p) = true
    · rw [if_pos hacc] at ha
      have hgap : 10 ≤ ((p : Int) - (pv : Int)).natAbs := by
        have := (Bool.and_eq_true .. |>.mp hacc).1
        simpa using this
      have hplt : pv < p := hgt p (List.mem_cons_self p ps)
      have hge : pv + 10 ≤ p := by omega
      rcases List.mem_cons.mp ha with rfl | ha
      · omega
      · have := ih p hps_pw (by omega) hps_gt a ha
        omega
    · rw [if_neg hacc] at ha
      exact ih pv hps_pw hpv (fun q hq => hgt q (List.mem_cons_of_mem p hq)) a ha

lemma lmLoop_chain (t : List ℚ) (mi : Nat) :
    ∀ (cs : List Nat) (prev : Option Nat), cs.Pairwise (· < ·) →
      (∀ p ∈ cs, 1 ≤ p) →
      (∀ pv, prev = some pv → 1 ≤ pv ∧ ∀ p ∈ cs, pv < p) →
      (lmLoop t mi cs prev).Chain' (fun a b => a + 10 ≤ b) := by
  intro cs
  induction cs with
  | nil =>
    intro prev _ _ _
    cases prev <;> simp [lmLoop]
  | cons p ps ih =>
    intro prev hpw h1 hprev
    have hps_pw := hpw.of_cons
    have hps_gt := (List.pairwise_cons.mp hpw).1
    have h1' : ∀ q ∈ ps, 1 ≤ q := fun q hq => h1 q (List.mem_cons_of_mem p hq)
    have hp1 : 1 ≤ p := h1 p (List.mem_cons_self p ps)
    have accept : ((p + mi) :: lmLoop t mi ps (some p)).Chain' (fun a b => a + 10 ≤ b) := by
      rw [List.chain'_cons']
      constructor
      · intro b hb
        have hbmem : b ∈ lmLoop t mi ps (some p) := List.mem_of_mem_head? hb
        have := lmLoop_lower t mi ps p hps_pw hp1 hps_gt b hbmem
        omega
      · exact ih (some p) hps_pw h1'
          (fun pv hpv => by cases hpv; exact ⟨hp1, hps_gt⟩)
    cases prev with
    | none =>
      rw [lmLoop]
      by_cases hc : lmCond t p
      · rw [if_pos hc]
        exact accept
      · rw [if_neg hc]
        exact ih none hps_pw h1' (fun pv hpv => by cases hpv)
    | some pv =>
      obtain ⟨hpv1, hgt⟩ := hprev pv rfl
      rw [lmLoop, if_neg (by omega : ¬ pv = 0)]
      by_cases hacc : (decide (10 ≤ ((p : Int) - (pv : Int)).natAbs) && lmCond t p) = true
      · rw [if_pos hacc]
        exact accept
      · rw [if_neg hacc]
        exact ih (some pv) hps_pw h1'
          (fun q hq => by
            cases hq
            exact ⟨hpv1, fun r hr => hgt r (List.mem_cons_of_mem p hr)⟩)

lemma relMaxCandidates_pairwise (t : List ℚ) : (relMaxCandidates t).Pairwise (· < ·) :=
  (List.pairwise_lt_range _).filter _

lemma relMaxCandidates_mem (t : List ℚ) (p : Nat) (hp : p ∈ relMaxCandidates t) :
    0 < p ∧ p + 1 < t.length - 10 ∧
      t.getD (p - 1) 0 < t.getD p 0 ∧ t.getD (p + 1) 0 < t.getD p 0 := by
  simp only [relMaxCandidates, List.mem_filter, List.mem_range, Bool.and_eq_true,
    decide_eq_true_eq] at hp
  exact ⟨hp.2.1.1.1, hp.2.1.1.2, hp.2.1.2, hp.2.2⟩

lemma get_mcv_none (t : List ℚ) (mi : Nat) (h : get_end_of_mcv_domain t = none) :
    get_mcv t mi = none := by
  simp only [get_mcv, h]

lemma extract_features_none (c : Crank)
    (h : get_mcv (get_smoothed_trace c) (argmin (get_smoothed_trace c)) = none) :
    extract_features c = none := by
  simp only [extract_features, h]

lemma extract_features_some (c : Crank) (v : ℚ)
    (h : get_mcv (get_smoothed_trace c) (argmin (get_smoothed_trace c)) = some v) :
    extract_features c = some
      { iv := get_iv (get_smoothed_trace c) (argmin (get_smoothed_trace c)),
        lvv := get_lvv (get_smoothed_trace c), mcv := v, time := c.time } := by
  simp only [extract_features, h]

lemma end_domain_none_of_no_surge (t : List ℚ)
    (h : ∀ x ∈ get_diff_times_10 (pySlice t (argmin t) 30),
      exceedsLimit (npVar (get_diff_times_10 (pySlice t (argmin t) 30))) x = false) :
    get_end_of_mcv_domain t = none := by
  simp only [get_end_of_mcv_domain]
  have hfil : (List.range (get_diff_times_10 (pySlice t (argmin t) 30)).length).filter
      (fun i => exceedsLimit (npVar (get_diff_times_10 (pySlice t (argmin t) 30)))
        ((get_diff_times_10 (pySlice t (argmin t) 30)).getD i 0)) = [] := by
    rw [List.filter_eq_nil_iff]
    intro i hi
    have hlt : i < (get_diff_times_10 (pySlice t (argmin t) 30)).length :=
      List.mem_range.mp hi
    have hx : (get_diff_times_10 (pySlice t (argmin t) 30)).getD i 0 ∈
        get_diff_times_10 (pySlice t (argmin t) 30) := by
      rw [getD_def _ _ hlt]
      exact List.getElem_mem hlt
    simpa using h _ hx
  rw [hfil]
  rfl

lemma npVar_nonneg (l : List ℚ) : 0 ≤ npVar l := by
  unfold npVar
  apply div_nonneg
  · apply List.sum_nonneg
    intro x hx
    simp only [List.mem_map] at hx
    obtain ⟨y, _, rfl⟩ := hx
    positivity
  · positivity

lemma exceedsLimit_iff_real (v x : ℚ) (hv : 0 ≤ v) :
    exceedsLimit v x = true ↔ (5 / 2 : ℝ) * Real.sqrt (v : ℝ) < (x : ℝ) := by
  unfold exceedsLimit
  rw [Bool.and_eq_true, decide_eq_true_eq, decide_eq_true_eq]
  have hv' : (0:ℝ) ≤ (v:ℝ) := by exact_mod_cast hv
  constructor
  · rintro ⟨hx, hlt⟩
    have hx' : (0:ℝ) < (x:ℝ) := by exact_mod_cast hx
    have hy : (0:ℝ) < 2 / 5 * (x:ℝ) := by linarith
    have hlt' : (25:ℝ) * v < 4 * x ^ 2 := by exact_mod_cast hlt
    have hv2 : (v:ℝ) < (2 / 5 * (x:ℝ)) ^ 2 := by nlinarith
    have hs := (Real.sqrt_lt' hy).mpr hv2
    nlinarith [hs, Real.sqrt_nonneg (v:ℝ)]
  · intro h
    have hs : (0:ℝ) ≤ Real.sqrt (v:ℝ) := Real.sqrt_nonneg _
    have hx' : (0:ℝ) < (x:ℝ) := lt_of_le_of_lt (by positivity) h
    have hx : 0 < x := by exact_mod_cast hx'
    refine ⟨hx, ?_⟩
    have hy : (0:ℝ) < 2 / 5 * (x:ℝ) := by linarith
    have h2 : Real.sqrt (v:ℝ) < 2 / 5 * (x:ℝ) := by nlinarith
    have h3 := (Real.sqrt_lt' hy).mp h2
    have h4 : (25:ℝ) * v < 4 * x ^ 2 := by nlinarith
    exact_mod_cast h4

lemma get_mcv_some_nomax (t : List ℚ) (mi e : Nat)
    (h : get_end_of_mcv_domain t = some e)
    (hl : (get_local_maxima ((t.take e).drop mi) mi).getLast? = none) :
    get_mcv t mi = some (round2 (npMean ((t.take e).drop mi))) := by
  simp only [get_mcv, h, hl]

lemma get_mcv_some_max (t : List ℚ) (mi e last : Nat)
    (h : get_end_of_mcv_domain t = some e)
    (hl : (get_local_maxima ((t.take e).drop mi) mi).getLast? = some last) :
    get_mcv t mi = some (round2 (npMean ((t.take
      (averageEnds (project_last_maximum_on_curve t last) e)).drop mi))) := by
  simp only [get_mcv, h, hl]

lemma get_mcv_some_inv (t : List ℚ) (mi : Nat) (v : ℚ) (h : get_mcv t mi = some v) :
    ∃ e, get_end_of_mcv_domain t = some e := by
  cases he : get_end_of_mcv_domain t with
  | none =>
    rw [get_mcv_none t mi he] at h
    cases h
  | some e => exact ⟨e, rfl⟩

lemma end_domain_some_ne_nil (t : List ℚ) (e : Nat)
    (h : get_end_of_mcv_domain t = some e) : t ≠ [] := by
  intro hnil
  subst hnil
  rw [(by with_unfolding_all rfl : get_end_of_mcv_domain [] = none)] at h
  cases h

lemma project_some_bound (t : List ℚ) (lm r : Nat)
    (h : project_last_maximum_on_curve t lm = some r) :
    lm + 10 ≤ r ∧ r < t.length - 10 ∧ t.getD lm 0 < t.getD r 0 ∧
      ∀ j, lm + 10 ≤ j → j < r → ¬ t.getD lm 0 < t.getD j 0 := by
  unfold project_last_maximum_on_curve at h
  obtain ⟨i, hi, rfl⟩ := Option.map_eq_some'.mp h
  obtain ⟨h1, h2, h3⟩ := firstExceed_some _ _ _ hi
  rw [pySlice_length] at h1
  rw [pySlice_getD _ _ _ _ (by omega)] at h2
  refine ⟨by omega, by omega, ?_, ?_⟩
  · have heq : lm + 10 + i = lm + i + 10 := by omega
    rwa [heq] at h2
  · intro j hj1 hj2
    have hj3 := h3 (j - (lm + 10)) (by omega)
    rw [pySlice_getD _ _ _ _ (by omega)] at hj3
    have heq : lm + 10 + (j - (lm + 10)) = j := by omega
    rwa [heq] at hj3

lemma project_none_bound (t : List ℚ) (lm : Nat)
    (h : project_last_maximum_on_curve t lm = none) :
    ∀ j, lm + 10 ≤ j → j < t.length - 10 → ¬ t.getD lm 0 < t.getD j 0 := by
  unfold project_last_maximum_on_curve at h
  have hn := Option.map_eq_none'.mp h
  intro j hj1 hj2
  have hlen : j - (lm + 10) < (pySlice t (lm + 10) 10).length := by
    rw [pySlice_length]
    omega
  have h1 := pySlice_getD t (lm + 10) 10 (j - (lm + 10)) (by omega)
  have heq : lm + 10 + (j - (lm + 10)) = j := by omega
  rw [heq] at h1
  rw [getD_def _ _ hlen] at h1
  rw [← h1]
  exact firstExceed_none _ _ hn _ (List.getElem_mem hlen)

/-! ## Claims -/

/-- Claim C5: for every non-empty `crank_profile`, `get_smoothed_trace`
returns a trace of the input's length, equal to the input up to and including
the raw argmin, and equal beyond it to the window-5 trailing moving average
(expanding for the first points) of the suffix `crank_profile[min_index+1:]`. -/
theorem c5_smoothing_shape (c : Crank) (h : c.crank_profile ≠ []) :
    (get_smoothed_trace c).length = c.crank_profile.length ∧
    (∀ j, j ≤ argmin c.crank_profile →
      (get_smoothed_trace c).getD j 0 = c.crank_profile.getD j 0) ∧
    (∀ i, i < c.crank_profile.length - (argmin c.crank_profile + 1) →
      (get_smoothed_trace c).getD (argmin c.crank_profile + 1 + i) 0 =
        npMean (((c.crank_profile.drop (argmin c.crank_profile + 1)).take (i + 1)).drop
          (i + 1 - 5))) :=
  ⟨smoothed_length c h, fun j hj => smoothed_getD_front c h j hj,
   fun i hi => smoothed_getD_back c h i hi⟩

/-- Claim C5 witness: the smoothing contract evaluated on `exampleCrank`. -/
theorem c5_witness :
    (get_smoothed_trace exampleCrank).length = exampleCrank.crank_profile.length ∧
    (∀ j, j ≤ argmin exampleCrank.crank_profile →
      (get_smoothed_trace exampleCrank).getD j 0 = exampleCrank.crank_profile.getD j 0) ∧
    (∀ i, i < exampleCrank.crank_profile.length - (argmin exampleCrank.crank_profile + 1) →
      (get_smoothed_trace exampleCrank).getD
          (argmin exampleCrank.crank_profile + 1 + i) 0 =
        npMean (((exampleCrank.crank_profile.drop
          (argmin exampleCrank.crank_profile + 1)).take (i + 1)).drop (i + 1 - 5))) :=
  c5_smoothing_shape exampleCrank (by with_unfolding_all decide)

/-- Claim C6: for every non-empty `crank_profile`, the first index of the
global minimum of the smoothed trace equals the first index of the global
minimum of the raw profile, so the `min_index` recomputed on the smoothed
trace in `extract_features` coincides with the split point used inside
`get_smoothed_trace`. -/
theorem c6_argmin_invariant (c : Crank) (h : c.crank_profile ≠ []) :
    argmin (get_smoothed_trace c) = argmin c.crank_profile :=
  argmin_smoothed c h

/-- Claim C6 witness: the argmin invariant evaluated on `exampleCrank`. -/
theorem c6_witness :
    argmin (get_smoothed_trace exampleCrank) = argmin exampleCrank.crank_profile :=
  c6_argmin_invariant exampleCrank (by with_unfolding_all decide)

/-- Claim C2: when no element of the scaled first difference of
`smoothed_trace[argmin:-30]` exceeds `2.5·σ` of that difference sequence
(the executable test `exceedsLimit`, equivalent to the real comparison by
`exceedsLimit_iff_real`), `get_end_of_mcv_domain` yields the out-of-range
failure and `extract_features` produces no record for the crank. -/
theorem c2_no_surge_discards (c : Crank)
    (h : ∀ x ∈ get_diff_times_10 (pySlice (get_smoothed_trace c)
        (argmin (get_smoothed_trace c)) 30),
      exceedsLimit (npVar (get_diff_times_10 (pySlice (get_smoothed_trace c)
        (argmin (get_smoothed_trace c)) 30))) x = false) :
    get_end_of_mcv_domain (get_smoothed_trace c) = none ∧
      extract_features c = none := by
  have h1 := end_domain_none_of_no_surge _ h
  exact ⟨h1, extract_features_none c (get_mcv_none _ _ h1)⟩

/-- Claim C2 witness: the constant crank has only zero differences, is
rejected by domain-end detection, and yields no feature record. -/
theorem c2_witness :
    get_end_of_mcv_domain (get_smoothed_trace constCrank) = none ∧
      extract_features constCrank = none :=
  c2_no_surge_discards constCrank (by with_unfolding_all decide)

/-- Claim C10: a found projection always lies at least 10 past the last
maximum (in particular it is never 0), so the Python truthiness fallback
`projection if projection else end_mcv_domain` modelled by `averageEnds`
selects the domain end exactly when no projection was found. -/
theorem c10_projection_truthiness (t : List ℚ) (lm : Nat) (h : 1 ≤ lm) :
    (∀ r, project_last_maximum_on_curve t lm = some r → lm + 10 ≤ r ∧ r ≠ 0) ∧
    (∀ e, averageEnds (project_last_maximum_on_curve t lm) e =
      (project_last_maximum_on_curve t lm).getD e) := by
  constructor
  · intro r hr
    have hb := project_some_bound t lm r hr
    exact ⟨hb.1, by omega⟩
  · intro e
    cases hp : project_last_maximum_on_curve t lm with
    | none => rfl
    | some r =>
      have hb := project_some_bound t lm r hp
      simp only [averageEnds, Option.getD_some]
      rw [if_neg (by omega)]

/-- Claim C10 witness: on `projTrace` with last maximum 1, the projection is
index 11 ≥ 1 + 10, and the truthiness fallback returns it unchanged. -/
theorem c10_witness :
    1 + 10 ≤ 11 ∧ (11 : Nat) ≠ 0 ∧
    averageEnds (project_last_maximum_on_curve projTrace 1) 99 = 11 := by
  have hthm := c10_projection_truthiness projTrace 1 (by norm_num)
  have hp : project_last_maximum_on_curve projTrace 1 = some 11 := by
    with_unfolding_all rfl
  refine ⟨(hthm.1 11 hp).1, (hthm.1 11 hp).2, ?_⟩
  rw [hthm.2 99, hp]
  rfl

/-- Claim C4 counterexample: on `wrapTrace` with offset 0, the returned index
5 stands for the accepted peak `p = 5 < 10`, so no `p` satisfies the claim's
condition that the value 10 positions before `p` exists and is compared
(Python wrapped `t[5 - 10]` around to `t[15]`). -/
theorem c4_counterexample :
    ¬ ((get_local_maxima wrapTrace 0).Chain' (fun a b => a + 10 ≤ b) ∧
       ∀ a ∈ get_local_maxima wrapTrace 0, ∃ p, a = p + 0 ∧
         0 < p ∧ p + 1 < wrapTrace.length - 10 ∧
         wrapTrace.getD (p - 1) 0 < wrapTrace.getD p 0 ∧
         wrapTrace.getD (p + 1) 0 < wrapTrace.getD p 0 ∧
         10 ≤ p ∧ p + 10 < wrapTrace.length ∧
         1 / 10 < |wrapTrace.getD p 0 - wrapTrace.getD (p - 10) 0| ∧
         wrapTrace.getD (p - 10) 0 < wrapTrace.getD p 0 ∧
         wrapTrace.getD (p + 10) 0 < wrapTrace.getD p 0) := by
  intro hcl
  obtain ⟨p, hp, h1, h2, h3, h4, hp10, hrest⟩ :=
    hcl.2 5 (by with_unfolding_all decide)
  omega

/-- Claim C4 (amended): `get_local_maxima` returns indices in strictly
increasing order, each at least 10 past its predecessor, and every returned
`a = p + min_index` has `p` a strict interior maximum of the trace without
its last 10 points, with `|t[p] - t[p-10]| > 0.1`, `t[p-10] < t[p]` and
`t[p+10] < t[p]` — where `t[p-10]` is read with Python's negative-index wrap
(`pyGet`), which is the value 10 positions before `p` only when `p ≥ 10`. -/
theorem c4_local_maxima_amended (t : List ℚ) (mi : Nat) :
    (get_local_maxima t mi).Chain' (fun a b => a + 10 ≤ b) ∧
    ∀ a ∈ get_local_maxima t mi, ∃ p, a = p + mi ∧
      0 < p ∧ p + 1 < t.length - 10 ∧
      t.getD (p - 1) 0 < t.getD p 0 ∧ t.getD (p + 1) 0 < t.getD p 0 ∧
      1 / 10 < |t.getD p 0 - pyGet t ((p : Int) - 10)| ∧
      pyGet t ((p : Int) - 10) < t.getD p 0 ∧
      t.getD (p + 10) 0 < t.getD p 0 := by
  constructor
  · unfold get_local_maxima
    apply lmLoop_chain
    · exact relMaxCandidates_pairwise t
    · intro p hp
      exact (relMaxCandidates_mem t p hp).1
    · intro pv hpv
      exact Option.noConfusion hpv
  · intro a ha
    unfold get_local_maxima at ha
    obtain ⟨p, hp, rfl, hc⟩ := lmLoop_mem t mi _ none a ha
    obtain ⟨h1, h2, h3, h4⟩ := relMaxCandidates_mem t p hp
    unfold lmCond at hc
    rw [Bool.and_eq_true, Bool.and_eq_true] at hc
    obtain ⟨⟨ha1, ha2⟩, ha3⟩ := hc
    exact ⟨p, rfl, h1, h2, h3, h4, of_decide_eq_true ha1, of_decide_eq_true ha2,
      of_decide_eq_true ha3⟩

/-- Claim C4 witness: the amended contract evaluated on `wrapTrace`. -/
theorem c4_witness :
    (get_local_maxima wrapTrace 0).Chain' (fun a b => a + 10 ≤ b) ∧
    (∃ p, 5 = p + 0 ∧
      0 < p ∧ p + 1 < wrapTrace.length - 10 ∧
      wrapTrace.getD (p - 1) 0 < wrapTrace.getD p 0 ∧
      wrapTrace.getD (p + 1) 0 < wrapTrace.getD p 0 ∧
      1 / 10 < |wrapTrace.getD p 0 - pyGet wrapTrace ((p : Int) - 10)| ∧
      pyGet wrapTrace ((p : Int) - 10) < wrapTrace.getD p 0 ∧
      wrapTrace.getD (p + 10) 0 < wrapTrace.getD p 0) := by
  have hthm := c4_local_maxima_amended wrapTrace 0
  exact ⟨hthm.1, hthm.2 5 (by with_unfolding_all decide)⟩

/-- Claim C3 counterexample: on the spec §8 round-trip profile the pipeline
raises instead of succeeding — `extract_features` yields no record at all,
so no record with `lvv = 2` and `iv = 10` exists. -/
theorem c3_counterexample :
    ¬ ∃ f, extract_features c3crank = some f ∧ f.lvv = 2 ∧ f.iv = 10 := by
  intro hex
  obtain ⟨f, hf, _, _⟩ := hex
  rw [(by with_unfolding_all rfl : extract_features c3crank = none)] at hf
  cases hf

/-- Claim C3 (amended): on the round-trip profile the smoothed minimum is 2
at index 3, but `smoothed_trace[3:-30]` is empty (the profile has 33 points),
so domain-end detection finds no candidate, raises the out-of-range failure,
and the crank is discarded with no feature record. -/
theorem c3_amended :
    argmin (get_smoothed_trace c3crank) = 3 ∧
    (get_smoothed_trace c3crank).getD 3 0 = 2 ∧
    pySlice (get_smoothed_trace c3crank) 3 30 = [] ∧
    get_end_of_mcv_domain (get_smoothed_trace c3crank) = none ∧
    extract_features c3crank = none := by
  with_unfolding_all decide

/-- Claim C7: whenever extraction succeeds, `iv` is the maximum of the
smoothed trace over indices `0..min_index` inclusive (it is attained and no
sample of that window is larger), and `lvv` is the minimum of the whole
smoothed trace (it is attained and no sample is smaller). -/
theorem c7_iv_lvv_extremes (c : Crank) (f : Features)
    (h : extract_features c = some f) :
    (f.iv ∈ (get_smoothed_trace c).take (argmin (get_smoothed_trace c) + 1) ∧
      ∀ y ∈ (get_smoothed_trace c).take (argmin (get_smoothed_trace c) + 1), y ≤ f.iv) ∧
    (f.lvv ∈ get_smoothed_trace c ∧ ∀ y ∈ get_smoothed_trace c, f.lvv ≤ y) := by
  obtain ⟨v, hv⟩ : ∃ v, get_mcv (get_smoothed_trace c)
      (argmin (get_smoothed_trace c)) = some v := by
    cases hm : get_mcv (get_smoothed_trace c) (argmin (get_smoothed_trace c)) with
    | none =>
      rw [extract_features_none c hm] at h
      cases h
    | some v => exact ⟨v, rfl⟩
  obtain ⟨e, he⟩ := get_mcv_some_inv _ _ _ hv
  have hne := end_domain_some_ne_nil _ _ he
  have hf : f =
      { iv := get_iv (get_smoothed_trace c) (argmin (get_smoothed_trace c)),
        lvv := get_lvv (get_smoothed_trace c), mcv := v, time := c.time } := by
    rw [extract_features_some c v hv] at h
    exact (Option.some.inj h).symm
  subst hf
  constructor
  · have htake : (get_smoothed_trace c).take (argmin (get_smoothed_trace c) + 1) ≠ [] := by
      intro h0
      rcases List.take_eq_nil_iff.mp h0 with h1 | h1
      · exact Nat.succ_ne_zero _ h1
      · exact hne h1
    obtain ⟨m, hsome, hmem, hle⟩ := listMax_spec _ htake
    have hiv : get_iv (get_smoothed_trace c) (argmin (get_smoothed_trace c)) = m := by
      rw [get_iv, hsome]
      rfl
    dsimp only
    rw [hiv]
    exact ⟨hmem, hle⟩
  · obtain ⟨m, hsome, hmem, hle⟩ := listMin_spec _ hne
    have hlvv : get_lvv (get_smoothed_trace c) = m := by
      rw [get_lvv, hsome]
      rfl
    dsimp only
    rw [hlvv]
    exact ⟨hmem, hle⟩

set_option maxRecDepth 100000 in
/-- Claim C7 witness: the extremes contract evaluated on `exampleCrank`,
whose record is `{iv := 5, lvv := 0, mcv := 0.35, time := …}`. -/
theorem c7_witness :
    ((5 : ℚ) ∈ (get_smoothed_trace exampleCrank).take
        (argmin (get_smoothed_trace exampleCrank) + 1) ∧
      ∀ y ∈ (get_smoothed_trace exampleCrank).take
        (argmin (get_smoothed_trace exampleCrank) + 1), y ≤ (5 : ℚ)) ∧
    ((0 : ℚ) ∈ get_smoothed_trace exampleCrank ∧
      ∀ y ∈ get_smoothed_trace exampleCrank, (0 : ℚ) ≤ y) :=
  c7_iv_lvv_extremes exampleCrank
    { iv := 5, lvv := 0, mcv := 7 / 20, time := "2018-11-26T07:36" }
    (by with_unfolding_all rfl)

/-- Claim C8: whenever extraction succeeds, the feature record is the
four-field record `{iv, lvv, mcv, time}` (the `Features` type has exactly
those entries) and its `time` entry is the input crank's timestamp,
unchanged. -/
theorem c8_record_time (c : Crank) (f : Features)
    (h : extract_features c = some f) :
    f.time = c.time ∧
    extract_features c = some { iv := f.iv, lvv := f.lvv, mcv := f.mcv, time := c.time } := by
  obtain ⟨v, hv⟩ : ∃ v, get_mcv (get_smoothed_trace c)
      (argmin (get_smoothed_trace c)) = some v := by
    cases hm : get_mcv (get_smoothed_trace c) (argmin (get_smoothed_trace c)) with
    | none =>
      rw [extract_features_none c hm] at h
      cases h
    | some v => exact ⟨v, rfl⟩
  have hf : f =
      { iv := get_iv (get_smoothed_trace c) (argmin (get_smoothed_trace c)),
        lvv := get_lvv (get_smoothed_trace c), mcv := v, time := c.time } := by
    rw [extract_features_some c v hv] at h
    exact (Option.some.inj h).symm
  subst hf
  exact ⟨rfl, h⟩

set_option maxRecDepth 100000 in
/-- Claim C8 witness: the record produced for `exampleCrank` carries its
timestamp through unchanged. -/
theorem c8_witness :
    ({ iv := 5, lvv := 0, mcv := 7 / 20, time := "2018-11-26T07:36" } : Features).time =
      exampleCrank.time ∧
    extract_features exampleCrank =
      some { iv := 5, lvv := 0, mcv := 7 / 20, time := exampleCrank.time } :=
  c8_record_time exampleCrank
    { iv := 5, lvv := 0, mcv := 7 / 20, time := "2018-11-26T07:36" }
    (by with_unfolding_all rfl)

/-- Claim C1: for every crank whose domain-end detection succeeds, extraction
succeeds and the record's `mcv` is the rounded mean of
`smoothed_trace[min_index:upper_bound]`, where `upper_bound` is the domain
end when no local maximum is accepted on `smoothed_trace[min_index:domain_end]`,
and otherwise the absolute index of the first point of
`smoothed_trace[last+10 : len-10]` strictly above `smoothed_trace[last]`,
falling back to the domain end when no such point exists (`mcvSpec`). -/
theorem c1_mcv_refines_spec (c : Crank) (e : Nat)
    (h : get_end_of_mcv_domain (get_smoothed_trace c) = some e) :
    ∃ f, extract_features c = some f ∧
      mcvSpec (get_smoothed_trace c) (argmin (get_smoothed_trace c)) e f.mcv := by
  cases hlast : (get_local_maxima (((get_smoothed_trace c).take e).drop
      (argmin (get_smoothed_trace c))) (argmin (get_smoothed_trace c))).getLast? with
  | none =>
    have hmcv := get_mcv_some_nomax _ (argmin (get_smoothed_trace c)) _ h hlast
    exact ⟨_, extract_features_some c _ hmcv,
      ⟨e, rfl, Or.inl ⟨List.getLast?_eq_none_iff.mp hlast, rfl⟩⟩⟩
  | some last =>
    cases hproj : project_last_maximum_on_curve (get_smoothed_trace c) last with
    | some r =>
      have hb := project_some_bound _ _ _ hproj
      have hmcv := get_mcv_some_max _ (argmin (get_smoothed_trace c)) _ _ h hlast
      have hae : averageEnds (project_last_maximum_on_curve
          (get_smoothed_trace c) last) e = r := by
        rw [hproj]
        simp only [averageEnds]
        rw [if_neg (by omega)]
      rw [hae] at hmcv
      exact ⟨_, extract_features_some c _ hmcv,
        ⟨r, rfl, Or.inr ⟨last, hlast, Or.inl ⟨hb.1, hb.2.1, hb.2.2.1, hb.2.2.2⟩⟩⟩⟩
    | none =>
      have hmcv := get_mcv_some_max _ (argmin (get_smoothed_trace c)) _ _ h hlast
      have hae : averageEnds (project_last_maximum_on_curve
          (get_smoothed_trace c) last) e = e := by
        rw [hproj]
        rfl
      rw [hae] at hmcv
      exact ⟨_, extract_features_some c _ hmcv,
        ⟨e, rfl, Or.inr ⟨last, hlast, Or.inr ⟨project_none_bound _ _ hproj, rfl⟩⟩⟩⟩

set_option maxRecDepth 100000 in
/-- Claim C1 witness: the `mcv` contract evaluated on `exampleCrank`, whose
domain end is 35. -/
theorem c1_witness :
    ∃ f, extract_features exampleCrank = some f ∧
      mcvSpec (get_smoothed_trace exampleCrank)
        (argmin (get_smoothed_trace exampleCrank)) 35 f.mcv :=
  c1_mcv_refines_spec exampleCrank 35 (by with_unfolding_all rfl)

/-- Claim C9 counterexample: on `exDoc`, whose second result's field set
differs from the first's, the emitted rows are not the header-ordered rows
the claim describes. -/
theorem c9_counterexample : writeCsv exDoc ≠ writeCsvHeaderOrder exDoc := by
  with_unfolding_all decide

/-- Claim C9 (amended): the header row is the FIRST result's sorted field
names and each line lists its own result's values in that result's own
sorted-key order; when every result has the same field names as the first,
every line is in the header's order, as the claim states. -/
theorem c9_csv_amended (hits : List (List (String × String)))
    (first : List (String × String)) (rest : List (List (String × String)))
    (hh : hits = first :: rest)
    (hkeys : ∀ src ∈ hits, (src.map Prod.fst).Perm (first.map Prod.fst)) :
    writeCsv hits = writeCsvHeaderOrder hits := by
  subst hh
  simp only [writeCsv, writeCsvHeaderOrder, Option.some.injEq, List.cons.injEq, true_and]
  apply List.map_congr_left
  intro src hsrc
  have hanti : IsAntisymm String (· ≤ ·) := ⟨fun a b h1 h2 => le_antisymm h1 h2⟩
  have hsort : sortedKeys src = sortedKeys first := by
    apply List.eq_of_perm_of_sorted (r := (· ≤ ·))
    · exact ((List.perm_insertionSort _ _).trans (hkeys src hsrc)).trans
        (List.perm_insertionSort _ _).symm
    · exact List.sorted_insertionSort _ _
    · exact List.sorted_insertionSort _ _
  rw [csvLine, hsort]

/-- Claim C9 witness: on `exDocUniform`, whose two results share one field
set, the emitted rows are exactly the header-ordered rows. -/
theorem c9_witness : writeCsv exDocUniform = writeCsvHeaderOrder exDocUniform :=
  c9_csv_amended exDocUniform [("a", "1"), ("b", "2")] [[("b", "4"), ("a", "3")]]
    rfl (by with_unfolding_all decide)
